import Mathlib

/-!
Verification of the roget Wordle simulator and its entropy-maximizing guesser.

The embedding follows the Rust source:
* `Correctness.check`  embeds `Correctness::check` from `src/lib.rs` (two-pass
  scoring with a consumption bitmap);
* `Wordle.play`        embeds `Wordle::play` from `src/lib.rs` (32-try loop with
  a dictionary-membership assertion, modelled by the `panicked` outcome);
* `Unoptimized.guess`  embeds `Unoptimized::guess` from
  `src/algorithms/unoptimized.rs` (prune on the last guess, then pick the
  candidate with maximal entropy, ties broken by occurrence count).

Machine words `[u8; 5]` are embedded as functions `Fin wordSize → Nat`;
`f64` occurrence counts are embedded as rationals, and the entropy value
computed for each candidate is abstracted as a function `Word → ℚ` wherever
only its comparisons matter.
-/

namespace Roget

/-- WORD_SIZE from the source. -/
def wordSize : Nat := 5

/-- A word: an ordered fixed-length sequence of letters (`[u8; WORD_SIZE]`). -/
abbrev Word := Fin wordSize → Nat

/-- Builds a concrete five-letter word from its letters. -/
def mkW (a b c d e : Nat) : Word := fun i => List.getD [a, b, c, d, e] i.val 0

/-- Per-position classification of a guessed letter (`enum Correctness`). -/
inductive Correctness
  | Correct
  | Misplaced
  | Wrong
deriving DecidableEq

/-- A score mask: one `Correctness` per letter position (`[Correctness; WORD_SIZE]`). -/
abbrev Mask := Fin wordSize → Correctness

/-- Builds a concrete mask from its five entries. -/
def mkM (a b c d e : Correctness) : Mask :=
  fun i => List.getD [a, b, c, d, e] i.val Correctness.Wrong

/-- State of the first pass of `Correctness::check`: position `i` is `Correct`
iff answer and guess agree there, otherwise (so far) `Wrong`. -/
def initRv (a g : Word) : Mask :=
  fun i => if a i = g i then Correctness.Correct else Correctness.Wrong

/-- Consumption bitmap after the first pass: answer position `j` is consumed
iff it was matched in place. -/
def initUsed (a g : Word) : Fin wordSize → Bool :=
  fun j => decide (a j = g j)

/-- The inner `for j` loop of the second pass: the first unconsumed answer
position holding letter `c`, scanning left to right. -/
def findUnused (a : Word) (used : Fin wordSize → Bool) (c : Nat) : Option (Fin wordSize) :=
  (List.finRange wordSize).find? (fun j => !used j && decide (a j = c))

/-- One iteration of the second pass of `Correctness::check` at guess position
`i`: if `i` is not already `Correct` and an unconsumed answer position with the
guessed letter exists, mark `i` `Misplaced` and consume that position. -/
def pass2Step (a g : Word) (st : Mask × (Fin wordSize → Bool)) (i : Fin wordSize) :
    Mask × (Fin wordSize → Bool) :=
  if st.1 i = Correctness.Correct then st
  else
    match findUnused a st.2 (g i) with
    | some j => (Function.update st.1 i Correctness.Misplaced, Function.update st.2 j true)
    | none => st

/-- Correctness::check from `src/lib.rs`: first pass marks exact matches
`Correct` and consumes them; second pass walks guess positions left to right,
marking `Misplaced` while consuming answer letters. -/
def Correctness.check (a g : Word) : Mask :=
  ((List.finRange wordSize).foldl (pass2Step a g) (initRv a g, initUsed a g)).1

/-- Final consumption bitmap of `Correctness::check`, kept for the counting
argument. -/
def Correctness.checkUsed (a g : Word) : Fin wordSize → Bool :=
  ((List.finRange wordSize).foldl (pass2Step a g) (initRv a g, initUsed a g)).2

/-- Number of occurrences of letter `c` in word `w`. -/
def cnt (w : Word) (c : Nat) : Nat :=
  (Finset.univ.filter fun i => w i = c).card

/-- Number of positions of `g` holding letter `c` that mask `m` marks
`Correct` or `Misplaced`. -/
def marks (m : Mask) (g : Word) (c : Nat) : Nat :=
  (Finset.univ.filter fun i => m i ≠ Correctness.Wrong ∧ g i = c).card

/-- Number of consumed answer positions holding letter `c`. -/
def usedCnt (used : Fin wordSize → Bool) (a : Word) (c : Nat) : Nat :=
  (Finset.univ.filter fun j => used j = true ∧ a j = c).card

/-- Number of positions holding letter `c` where answer and guess agree. -/
def corrCnt (a g : Word) (c : Nat) : Nat :=
  (Finset.univ.filter fun j => a j = g j ∧ a j = c).card

/-- Number of positions of `g` holding letter `c` that mask `m` marks
`Misplaced`. -/
def misCnt (m : Mask) (g : Word) (c : Nat) : Nat :=
  (Finset.univ.filter fun i => m i = Correctness.Misplaced ∧ g i = c).card

/-- Loop invariant of the second pass of `Correctness::check`, with `l` the
suffix of guess positions still to process: `Correct` marks coincide with
positional agreement; every consumed answer position is accounted for by one
`Correct` or one `Misplaced` mark of the same letter; unprocessed positions
carry no `Misplaced` mark yet; and a processed position left `Wrong` has
exhausted every answer position holding its letter. -/
structure Inv (a g : Word) (st : Mask × (Fin wordSize → Bool))
    (l : List (Fin wordSize)) : Prop where
  correct_iff : ∀ i, st.1 i = Correctness.Correct ↔ a i = g i
  counts : ∀ c, usedCnt st.2 a c = corrCnt a g c + misCnt st.1 g c
  unprocessed : ∀ i ∈ l, st.1 i ≠ Correctness.Misplaced
  wrong_done : ∀ i, i ∉ l → st.1 i = Correctness.Wrong →
    ∀ j, a j = g i → st.2 j = true

/-- A past guess as recorded by the simulator (`struct Guess`): the submitted
word and the mask the Scoring Engine produced for it. -/
structure GuessRec where
  word : Word
  mask : Mask
deriving DecidableEq

/-- TRIES_BEFORE_LOSS from the source. -/
def triesBeforeLoss : Nat := 32

/-- Outcome of `Wordle::play`: `won k` embeds `Some(k)`, `lost` embeds `None`,
and `panicked` embeds the abort of the `assert!(dictionary.contains(...))`. -/
inductive PlayResult
  | won (turn : Nat)
  | lost
  | panicked
deriving DecidableEq

/-- The loop body of `Wordle::play`, with `fuel` remaining tries and `i` the
1-based number of the current try: ask the guesser, assert dictionary
membership, stop on an exact match, otherwise score and record the guess. -/
def playGo (dict : List Word) (answer : Word) (guesser : List GuessRec → Word) :
    Nat → Nat → List GuessRec → PlayResult
  | 0, _, _ => PlayResult.lost
  | fuel + 1, i, past =>
    if guesser past ∈ dict then
      if guesser past = answer then PlayResult.won i
      else playGo dict answer guesser fuel (i + 1)
        (past ++ [⟨guesser past, Correctness.check answer (guesser past)⟩])
    else PlayResult.panicked

/-- Wordle::play from `src/lib.rs`: 32 tries, starting with an empty history.
The guesser is embedded as a function of the history, which determines every
call a deterministic guesser receives during one game. -/
def Wordle.play (dict : List Word) (answer : Word) (guesser : List GuessRec → Word) :
    PlayResult :=
  playGo dict answer guesser triesBeforeLoss 1 []

/-- History the simulator has accumulated after `k` recorded (non-matching)
guesses, mirroring the `past_guesses.push` of `Wordle::play`. -/
def histTrace (answer : Word) (guesser : List GuessRec → Word) : Nat → List GuessRec
  | 0 => []
  | k + 1 =>
    let past := histTrace answer guesser k
    past ++ [⟨guesser past, Correctness.check answer (guesser past)⟩]

/-- The word the guesser submits on (1-based) turn `k` of the game. -/
def guessAt (answer : Word) (guesser : List GuessRec → Word) (k : Nat) : Word :=
  guesser (histTrace answer guesser (k - 1))

/-- An entry of the guesser's candidate pool (`DictionaryWithCounts`): a word
and its frequency weight. The pool is embedded as an association list, so
every iteration order of the source's hash map is an instance. -/
abbrev Pool := List (Word × ℚ)

/-- One retain pass of `Unoptimized::guess`: keep the pool entries whose word,
scored as the answer against the guessed word, reproduces the recorded mask. -/
def pruneOnce (pool : Pool) (last : GuessRec) : Pool :=
  pool.filter fun p => decide (Correctness.check p.1 last.word = last.mask)

/-- Sequential pruning, one retain pass per recorded guess, in order. -/
def pruneHistory (init : Pool) (hist : List GuessRec) : Pool :=
  hist.foldl pruneOnce init

/-- Evaluation record of one scanned pool word (`struct Candidate`). -/
structure Candidate where
  word : Word
  occurrence_count : ℚ
  expected_information : ℚ
deriving DecidableEq

/-- One iteration of the selection loop of `Unoptimized::guess`: a scanned
word replaces the current best when there is none yet, when its entropy is
strictly larger, or when the entropy ties exactly and its occurrence count is
strictly larger. `ent` abstracts the per-word entropy value computed in the
loop body. -/
def selStep (ent : Word → ℚ) (best : Option Candidate) (p : Word × ℚ) : Option Candidate :=
  match best with
  | none => some ⟨p.1, p.2, ent p.1⟩
  | some b =>
    if ent p.1 > b.expected_information ∨
        (ent p.1 = b.expected_information ∧ p.2 > b.occurrence_count) then
      some ⟨p.1, p.2, ent p.1⟩
    else some b

/-- The selection loop of `Unoptimized::guess` over the remaining pool. -/
def selectBest (ent : Word → ℚ) (pool : Pool) : Option Candidate :=
  pool.foldl (selStep ent) none

/-- Unoptimized::guess from `src/algorithms/unoptimized.rs`: prune the pool on
the most recent guess (if any), then return the remaining word maximizing the
entropy value, ties broken by occurrence count. The call returns the pruned
pool and the chosen word; `none` embeds the `best.expect(...)` abort on an
empty pool. -/
def Unoptimized.guess (ent : Word → ℚ) (pool : Pool) (past : List GuessRec) :
    Pool × Option Word :=
  let remaining :=
    match past.getLast? with
    | some last => pruneOnce pool last
    | none => pool
  (remaining, (selectBest ent remaining).map Candidate.word)

/-- Total frequency weight of the pool (`total_occurrence_count`). -/
def totalWeight (pool : Pool) : ℚ := (pool.map Prod.snd).sum

/-- Probability mass the scoring loop of `Unoptimized::guess` assigns to mask
`m` when evaluating candidate `w`: the `masks_with_probabilities` accumulator
entry for `m`, the sum of `weight / total` over the pool entries `r` with
`check(w, r.word) = m` — the candidate `w` is passed as the answer argument
and the pool word as the guess argument, as in the source. -/
def maskWeight (pool : Pool) (w : Word) (m : Mask) : ℚ :=
  ((pool.filter fun r => decide (Correctness.check w r.1 = m)).map
    fun r => r.2 / totalWeight pool).sum

/-- Modelled from the spec: the probability the claim assigns to mask `m` for
candidate `w` — the weight of the pool entries `r` whose mask `check(r.word, w)`,
treating `r.word` as the hypothetical true answer and `w` as the guess,
equals `m`, divided by the total pool weight. Kept separate from `maskWeight`
to compare the source's argument order with the claimed one. -/
def maskWeightClaim (pool : Pool) (w : Word) (m : Mask) : ℚ :=
  ((pool.filter fun r => decide (Correctness.check r.1 w = m)).map
    fun r => r.2 / totalWeight pool).sum

/-- The all-Correct mask. -/
def allCorrect : Mask := fun _ => Correctness.Correct

/-- A concrete entropy function used to instantiate the selection theorems:
the first letter of the word, as a rational. -/
def entHead : Word → ℚ := fun w => (w ⟨0, by decide⟩ : ℚ)

/-- A concrete three-entry candidate pool used to instantiate theorems. -/
def poolA : Pool :=
  [(mkW 1 0 0 0 0, 2), (mkW 3 0 0 0 0, 5), (mkW 3 1 0 0 0, 4)]

/-- A concrete two-entry candidate pool used to instantiate theorems. -/
def poolB : Pool := [(mkW 0 0 1 1 4, 3), (mkW 4 25 0 25 25, 7)]

/-- A concrete equal-weight pool exhibiting the scoring-direction divergence:
the words "aabbe", "bzazz" and "ezazz" (letters a = 0, b = 1, e = 4, z = 25). -/
def poolC : Pool :=
  [(mkW 0 0 1 1 4, 1), (mkW 1 25 0 25 25, 1), (mkW 4 25 0 25 25, 1)]

/-- A concrete answer word ("moved") used to instantiate the play theorems. -/
def ansA : Word := mkW 12 14 21 4 3

/-- A concrete non-answer word ("which") used to instantiate the play
theorems. -/
def wrdB : Word := mkW 22 7 8 2 7

/-- A concrete two-word dictionary. -/
def dictC : List Word := [ansA, wrdB]

/-- A concrete guesser that answers correctly on its second call. -/
def guessC : List GuessRec → Word := fun past => if past.length = 1 then ansA else wrdB

end Roget

namespace Roget

/- Sanity checks mirroring the `check_correctness` test module of the source
(letters encoded a = 0 … z = 25). -/

example :
    Correctness.check (mkW 7 4 11 11 14) (mkW 7 4 11 11 14) =
      mkM .Correct .Correct .Correct .Correct .Correct := by decide

example :
    Correctness.check (mkW 7 4 11 11 14) (mkW 15 16 17 18 19) =
      mkM .Wrong .Wrong .Wrong .Wrong .Wrong := by decide

example :
    Correctness.check (mkW 7 4 11 11 14) (mkW 11 11 14 7 4) =
      mkM .Misplaced .Misplaced .Misplaced .Misplaced .Misplaced := by decide

example :
    Correctness.check (mkW 7 4 11 11 14) (mkW 22 14 17 11 3) =
      mkM .Wrong .Misplaced .Wrong .Correct .Wrong := by decide

example :
    Correctness.check (mkW 7 4 11 11 14) (mkW 11 11 11 11 11) =
      mkM .Wrong .Wrong .Correct .Correct .Wrong := by decide

example :
    Correctness.check (mkW 0 25 25 0 25) (mkW 0 0 0 1 1) =
      mkM .Correct .Misplaced .Wrong .Wrong .Wrong := by decide

/- Sanity checks mirroring the `play_wordle` test module of the source:
a guesser that answers correctly at once wins on turn 1, one that answers
correctly on its third call wins on turn 3, one that never answers loses. -/

example :
    Wordle.play [mkW 12 14 21 4 3] (mkW 12 14 21 4 3) (fun _ => mkW 12 14 21 4 3) =
      PlayResult.won 1 := by decide

example :
    Wordle.play [mkW 12 14 21 4 3, mkW 22 7 8 2 7] (mkW 12 14 21 4 3)
      (fun past => if past.length = 2 then mkW 12 14 21 4 3 else mkW 22 7 8 2 7) =
      PlayResult.won 3 := by decide

example :
    Wordle.play [mkW 12 14 21 4 3, mkW 22 7 8 2 7] (mkW 12 14 21 4 3)
      (fun _ => mkW 22 7 8 2 7) = PlayResult.lost := by decide

/-- Folding the selection step from an existing best candidate `a` yields a
best candidate `b` that is either `a` or a pool entry scored by `ent`, whose
score and (on score ties) weight dominate `a`'s and every scanned entry's. -/
lemma selectBest_go (ent : Word → ℚ) (pool : Pool) :
    ∀ a : Candidate, ∃ b : Candidate,
      pool.foldl (selStep ent) (some a) = some b ∧
      (b = a ∨ ((b.word, b.occurrence_count) ∈ pool ∧
        b.expected_information = ent b.word)) ∧
      a.expected_information ≤ b.expected_information ∧
      (a.expected_information = b.expected_information →
        a.occurrence_count ≤ b.occurrence_count) ∧
      ∀ p ∈ pool, ent p.1 ≤ b.expected_information ∧
        (ent p.1 = b.expected_information → p.2 ≤ b.occurrence_count) := by
  induction pool with
  | nil =>
    intro a
    exact ⟨a, rfl, Or.inl rfl, le_refl _, fun _ => le_refl _, by simp⟩
  | cons p t ih =>
    intro a
    by_cases hb : ent p.1 > a.expected_information ∨
        (ent p.1 = a.expected_information ∧ p.2 > a.occurrence_count)
    · obtain ⟨b, hfold, hmem, hle, htie, hall⟩ := ih ⟨p.1, p.2, ent p.1⟩
      refine ⟨b, ?_, ?_, ?_, ?_, ?_⟩
      · simpa [selStep, hb] using hfold
      · rcases hmem with h | h
        · exact Or.inr ⟨by simp [h], by simp [h]⟩
        · exact Or.inr ⟨List.mem_cons_of_mem _ h.1, h.2⟩
      · have hle' : ent p.1 ≤ b.expected_information := hle
        rcases hb with h | h
        · linarith
        · linarith [h.1]
      · intro heq
        have hle' : ent p.1 ≤ b.expected_information := hle
        rcases hb with h | h
        · linarith
        · have htie' : p.2 ≤ b.occurrence_count := htie (by rw [h.1, heq])
          linarith [h.2]
      · intro q hq
        rcases List.mem_cons.mp hq with h | h
        · subst h
          exact ⟨hle, fun hq2 => htie hq2⟩
        · exact hall q h
    · obtain ⟨b, hfold, hmem, hle, htie, hall⟩ := ih a
      have hfold' : (p :: t).foldl (selStep ent) (some a) = some b := by
        simpa [selStep, hb] using hfold
      push_neg at hb
      refine ⟨b, hfold', ?_, hle, htie, ?_⟩
      · rcases hmem with h | h
        · exact Or.inl h
        · exact Or.inr ⟨List.mem_cons_of_mem _ h.1, h.2⟩
      · intro q hq
        rcases List.mem_cons.mp hq with h | h
        · subst h
          constructor
          · exact le_trans hb.1 hle
          · intro hq2
            have h1 : ent q.1 ≤ a.expected_information := hb.1
            have h2 : a.expected_information = b.expected_information :=
              le_antisymm hle (hq2 ▸ h1)
            exact le_trans (hb.2 (h2 ▸ hq2)) (htie h2)
        · exact hall q h

/-- What the selection loop guarantees when it returns a candidate: the
candidate is a pool entry, its stored score is its `ent` value, and its score
and (on score ties) weight dominate every pool entry. -/
lemma selectBest_spec (ent : Word → ℚ) (pool : Pool) (b : Candidate)
    (h : selectBest ent pool = some b) :
    (b.word, b.occurrence_count) ∈ pool ∧
      b.expected_information = ent b.word ∧
      ∀ p ∈ pool, ent p.1 ≤ b.expected_information ∧
        (ent p.1 = b.expected_information → p.2 ≤ b.occurrence_count) := by
  cases pool with
  | nil => simp [selectBest] at h
  | cons p t =>
    obtain ⟨b', hfold, hmem, hle, htie, hall⟩ := selectBest_go ent t ⟨p.1, p.2, ent p.1⟩
    have hsel : selectBest ent (p :: t) = some b' := by
      simpa [selectBest, selStep] using hfold
    have hbb : b = b' := by
      have := hsel ▸ h
      exact (Option.some.inj this).symm
    subst hbb
    refine ⟨?_, ?_, ?_⟩
    · rcases hmem with h' | h'
      · simp [h']
      · exact List.mem_cons_of_mem _ h'.1
    · rcases hmem with h' | h'
      · simp [h']
      · exact h'.2
    · intro q hq
      rcases List.mem_cons.mp hq with h' | h'
      · subst h'
        exact ⟨hle, fun h2 => htie h2⟩
      · exact hall q h'

/-- Folding the selection step from an existing candidate never loses it. -/
lemma foldl_selStep_isSome (ent : Word → ℚ) (pool : Pool) :
    ∀ a : Candidate, ∃ b, pool.foldl (selStep ent) (some a) = some b :=
  fun a => ⟨_, ((selectBest_go ent pool a).choose_spec).1⟩

/-- Selection over a non-empty pool always yields a candidate. -/
lemma selectBest_of_ne_nil (ent : Word → ℚ) (pool : Pool) (h : pool ≠ []) :
    ∃ b, selectBest ent pool = some b := by
  cases pool with
  | nil => exact absurd rfl h
  | cons p t =>
    obtain ⟨b, hb⟩ := foldl_selStep_isSome ent t ⟨p.1, p.2, ent p.1⟩
    exact ⟨b, by simpa [selectBest, selStep] using hb⟩

/-- The chosen word of `Unoptimized::guess` is computed by the selection loop
over the pruned pool. -/
lemma guess_snd (ent : Word → ℚ) (pool : Pool) (past : List GuessRec) :
    (Unoptimized.guess ent pool past).2 =
      (selectBest ent (Unoptimized.guess ent pool past).1).map Candidate.word := by
  unfold Unoptimized.guess
  cases past.getLast? <;> rfl

/-- Pruning only removes keys from the pool. -/
lemma guess_fst_sub (ent : Word → ℚ) (pool : Pool) (past : List GuessRec) :
    (Unoptimized.guess ent pool past).1.map Prod.fst ⊆ pool.map Prod.fst := by
  cases h : past.getLast? with
  | none =>
    have h1 : (Unoptimized.guess ent pool past).1 = pool := by
      simp [Unoptimized.guess, h]
    rw [h1]
    exact fun x hx => hx
  | some last =>
    have h1 : (Unoptimized.guess ent pool past).1 = pruneOnce pool last := by
      simp [Unoptimized.guess, h]
    rw [h1]
    exact List.map_subset _ (fun x hx => List.mem_of_mem_filter hx)

/-- C4: pruning once per turn against only the most recent guess leaves, after
the prune step of each call, exactly the initial pool entries whose word is
consistent (via the Scoring Engine) with every recorded guess of the entire
history; `pruneHistory` is the sequence of per-call retain passes, in order. -/
theorem c4_prune_last_guess_suffices (init : Pool) (hist : List GuessRec) (p : Word × ℚ) :
    p ∈ pruneHistory init hist ↔
      p ∈ init ∧ ∀ gr ∈ hist, Correctness.check p.1 gr.word = gr.mask := by
  induction hist generalizing init with
  | nil => simp [pruneHistory]
  | cons gr t ih =>
    have h : pruneHistory init (gr :: t) = pruneHistory (pruneOnce init gr) t := rfl
    rw [h, ih]
    simp only [pruneOnce, List.mem_filter, decide_eq_true_eq, List.forall_mem_cons]
    tauto

/-- C5: the word returned by a selection pass over a non-empty pool is a pool
entry whose entropy value is maximal among all entries scanned in the pass,
and whose frequency weight is maximal among the entries achieving that
entropy. -/
theorem c5_selected_entropy_maximal (ent : Word → ℚ) (pool : Pool) (b : Candidate)
    (h : selectBest ent pool = some b) :
    (b.word, b.occurrence_count) ∈ pool ∧
      ∀ p ∈ pool, ent p.1 ≤ ent b.word ∧
        (ent p.1 = ent b.word → p.2 ≤ b.occurrence_count) := by
  obtain ⟨hmem, hei, hall⟩ := selectBest_spec ent pool b h
  refine ⟨hmem, fun p hp => ?_⟩
  rw [← hei]
  exact hall p hp

/-- Instantiation of the selection theorem on a concrete pool: the word with
first letter 3 and weight 5 beats the lower-entropy word and the equal-entropy,
lower-weight word. -/
theorem c5_selected_entropy_maximal_witness :
    (mkW 3 0 0 0 0, (5 : ℚ)) ∈ poolA ∧
      ∀ p ∈ poolA, entHead p.1 ≤ entHead (mkW 3 0 0 0 0) ∧
        (entHead p.1 = entHead (mkW 3 0 0 0 0) → p.2 ≤ (5 : ℚ)) :=
  c5_selected_entropy_maximal entHead poolA ⟨mkW 3 0 0 0 0, 5, 3⟩ (by decide)

/-- C8: a guess call whose pruned pool is empty produces no word (the
`best.expect` abort, embedded as `none`); a non-empty pruned pool always
produces a word. -/
theorem c8_empty_pool_aborts (ent : Word → ℚ) (pool : Pool) (past : List GuessRec) :
    ((Unoptimized.guess ent pool past).1 = [] →
        (Unoptimized.guess ent pool past).2 = none) ∧
      ((Unoptimized.guess ent pool past).1 ≠ [] →
        ∃ w, (Unoptimized.guess ent pool past).2 = some w) := by
  constructor
  · intro h
    rw [guess_snd, h]
    rfl
  · intro h
    obtain ⟨b, hb⟩ := selectBest_of_ne_nil ent _ h
    exact ⟨b.word, by rw [guess_snd, hb]; rfl⟩

/-- C9: one guess call never adds pool entries: after the retain prune, the
pool's keys are a subset of the keys it held before the call. -/
theorem c9_pool_shrinks_monotonically (ent : Word → ℚ) (pool : Pool) (past : List GuessRec) :
    (Unoptimized.guess ent pool past).1.map Prod.fst ⊆ pool.map Prod.fst :=
  guess_fst_sub ent pool past

/-- C10: the word a guess call returns is a key of its own pruned candidate
pool, so whenever the initial pool's keys all belong to the dictionary the
returned word does too. -/
theorem c10_guess_word_in_pool (ent : Word → ℚ) (pool : Pool) (past : List GuessRec)
    (w : Word) (h : (Unoptimized.guess ent pool past).2 = some w) :
    w ∈ (Unoptimized.guess ent pool past).1.map Prod.fst ∧
      ∀ dict : List Word, pool.map Prod.fst ⊆ dict → w ∈ dict := by
  rw [guess_snd] at h
  obtain ⟨b, hb, hw⟩ := Option.map_eq_some'.mp h
  obtain ⟨hmem, -, -⟩ := selectBest_spec ent _ b hb
  subst hw
  have h1 : b.word ∈ (Unoptimized.guess ent pool past).1.map Prod.fst :=
    List.mem_map.mpr ⟨(b.word, b.occurrence_count), hmem, rfl⟩
  exact ⟨h1, fun dict hd => hd (guess_fst_sub ent pool past h1)⟩

/-- Instantiation of the returned-word theorem on a concrete pool with empty
history. -/
theorem c10_guess_word_in_pool_witness :
    mkW 3 0 0 0 0 ∈ (Unoptimized.guess entHead poolA []).1.map Prod.fst ∧
      ∀ dict : List Word, poolA.map Prod.fst ⊆ dict → mkW 3 0 0 0 0 ∈ dict :=
  c10_guess_word_in_pool entHead poolA [] (mkW 3 0 0 0 0) (by decide)

/-- Growing the recorded history by one turn, for a 1-based turn index. -/
lemma histTrace_extend (answer : Word) (guesser : List GuessRec → Word) (i : Nat)
    (hi : 1 ≤ i) :
    histTrace answer guesser (i - 1) ++
        [⟨guesser (histTrace answer guesser (i - 1)),
          Correctness.check answer (guesser (histTrace answer guesser (i - 1)))⟩] =
      histTrace answer guesser i := by
  have h : i - 1 + 1 = i := by omega
  conv_rhs => rw [← h]
  rfl

/-- If the guesser matches the answer on turn `k` (within the remaining fuel)
and on no earlier turn from `i` on, the loop reports a win on turn `k`. -/
lemma playGo_won (dict : List Word) (answer : Word) (guesser : List GuessRec → Word)
    (hdict : ∀ past, guesser past ∈ dict) :
    ∀ fuel i k : Nat, 1 ≤ i → i ≤ k → k < i + fuel →
      guessAt answer guesser k = answer →
      (∀ j, i ≤ j → j < k → guessAt answer guesser j ≠ answer) →
      playGo dict answer guesser fuel i (histTrace answer guesser (i - 1)) =
        PlayResult.won k := by
  intro fuel
  induction fuel with
  | zero => intro i k _ h1 h2 _ _; omega
  | succ fuel ih =>
    intro i k hi hik hk hmatch hmiss
    have hw : guesser (histTrace answer guesser (i - 1)) ∈ dict := hdict _
    by_cases heq : i = k
    · subst heq
      have ha : guesser (histTrace answer guesser (i - 1)) = answer := hmatch
      simp only [playGo]
      rw [if_pos hw, if_pos ha]
    · have hne : guesser (histTrace answer guesser (i - 1)) ≠ answer :=
        hmiss i (le_refl i) (by omega)
      have hrec : playGo dict answer guesser (fuel + 1) i
          (histTrace answer guesser (i - 1)) =
          playGo dict answer guesser fuel (i + 1) (histTrace answer guesser i) := by
        rw [← histTrace_extend answer guesser i hi]
        simp [playGo, hw, hne]
      rw [hrec]
      have h2 : histTrace answer guesser i = histTrace answer guesser (i + 1 - 1) := rfl
      rw [h2]
      exact ih (i + 1) k (by omega) (by omega) (by omega) hmatch
        (fun j h1 h2 => hmiss j (by omega) h2)

/-- If the guesser misses the answer on every turn the remaining fuel allows,
the loop reports a loss. -/
lemma playGo_lost (dict : List Word) (answer : Word) (guesser : List GuessRec → Word)
    (hdict : ∀ past, guesser past ∈ dict) :
    ∀ fuel i : Nat, 1 ≤ i →
      (∀ j, i ≤ j → j < i + fuel → guessAt answer guesser j ≠ answer) →
      playGo dict answer guesser fuel i (histTrace answer guesser (i - 1)) =
        PlayResult.lost := by
  intro fuel
  induction fuel with
  | zero => intro i _ _; rfl
  | succ fuel ih =>
    intro i hi hmiss
    have hw : guesser (histTrace answer guesser (i - 1)) ∈ dict := hdict _
    have hne : guesser (histTrace answer guesser (i - 1)) ≠ answer :=
      hmiss i (le_refl i) (by omega)
    have hrec : playGo dict answer guesser (fuel + 1) i
        (histTrace answer guesser (i - 1)) =
        playGo dict answer guesser fuel (i + 1) (histTrace answer guesser i) := by
      rw [← histTrace_extend answer guesser i hi]
      simp [playGo, hw, hne]
    rw [hrec]
    have h2 : histTrace answer guesser i = histTrace answer guesser (i + 1 - 1) := rfl
    rw [h2]
    exact ih (i + 1) (by omega) (fun j h1 h2 => hmiss j (by omega) (by omega))

/-- The loop aborts on the assertion exactly when some reachable turn submits
a word outside the dictionary, every earlier turn submitting a legal
non-matching word. -/
lemma playGo_panic_iff (dict : List Word) (answer : Word) (guesser : List GuessRec → Word) :
    ∀ fuel i : Nat, 1 ≤ i →
      (playGo dict answer guesser fuel i (histTrace answer guesser (i - 1)) =
          PlayResult.panicked ↔
        ∃ k, i ≤ k ∧ k < i + fuel ∧ guessAt answer guesser k ∉ dict ∧
          ∀ j, i ≤ j → j < k →
            guessAt answer guesser j ∈ dict ∧ guessAt answer guesser j ≠ answer) := by
  intro fuel
  induction fuel with
  | zero =>
    intro i _
    constructor
    · intro h; exact PlayResult.noConfusion h
    · rintro ⟨k, h1, h2, -, -⟩; omega
  | succ fuel ih =>
    intro i hi
    by_cases hw : guesser (histTrace answer guesser (i - 1)) ∈ dict
    · by_cases heq : guesser (histTrace answer guesser (i - 1)) = answer
      · have hlhs : playGo dict answer guesser (fuel + 1) i
            (histTrace answer guesser (i - 1)) = PlayResult.won i := by
          simp only [playGo]
          rw [if_pos hw, if_pos heq]
        rw [hlhs]
        constructor
        · intro h; exact PlayResult.noConfusion h
        · rintro ⟨k, h1, h2, h3, h4⟩
          rcases Nat.eq_or_lt_of_le h1 with h | h
          · exact absurd hw (h ▸ h3)
          · exact absurd heq (h4 i (le_refl i) h).2
      · have hrec : playGo dict answer guesser (fuel + 1) i
            (histTrace answer guesser (i - 1)) =
            playGo dict answer guesser fuel (i + 1) (histTrace answer guesser i) := by
          rw [← histTrace_extend answer guesser i hi]
          simp [playGo, hw, heq]
        rw [hrec]
        have h2 : histTrace answer guesser i = histTrace answer guesser (i + 1 - 1) := rfl
        rw [h2, ih (i + 1) (by omega)]
        constructor
        · rintro ⟨k, h1, h2, h3, h4⟩
          refine ⟨k, by omega, by omega, h3, fun j hj1 hj2 => ?_⟩
          rcases Nat.eq_or_lt_of_le hj1 with h | h
          · exact h ▸ ⟨hw, heq⟩
          · exact h4 j h hj2
        · rintro ⟨k, h1, h2, h3, h4⟩
          have hki : k ≠ i := fun h => absurd hw (h ▸ h3)
          exact ⟨k, by omega, by omega, h3, fun j hj1 hj2 => h4 j (by omega) hj2⟩
    · have hlhs : playGo dict answer guesser (fuel + 1) i
          (histTrace answer guesser (i - 1)) = PlayResult.panicked := by
        simp [playGo, hw]
      rw [hlhs]
      constructor
      · intro _
        exact ⟨i, le_refl i, by omega, hw, fun j hj1 hj2 => by omega⟩
      · intro _; rfl

/-- Updating a map at a point that newly satisfies a pointwise predicate grows
the filtered count by one. -/
lemma card_filter_update_add {α : Type} (f : Fin wordSize → α) (i₀ : Fin wordSize) (v : α)
    (p : Fin wordSize → α → Prop) [inst : ∀ i x, Decidable (p i x)]
    (h₀ : ¬ p i₀ (f i₀)) (h₁ : p i₀ v) :
    (Finset.univ.filter fun i => p i (Function.update f i₀ v i)).card =
      (Finset.univ.filter fun i => p i (f i)).card + 1 := by
  have hset : (Finset.univ.filter fun i => p i (Function.update f i₀ v i)) =
      insert i₀ (Finset.univ.filter fun i => p i (f i)) := by
    ext j
    by_cases hj : j = i₀
    · subst hj
      simp [Function.update_same, h₀, h₁]
    · simp [Function.update_noteq hj, hj]
  rw [hset, Finset.card_insert_of_not_mem (by simp [h₀])]

/-- Updating a map at a point where the pointwise predicate is unaffected
leaves the filtered count unchanged. -/
lemma card_filter_update_eq {α : Type} (f : Fin wordSize → α) (i₀ : Fin wordSize) (v : α)
    (p : Fin wordSize → α → Prop) [inst : ∀ i x, Decidable (p i x)]
    (h : p i₀ v ↔ p i₀ (f i₀)) :
    (Finset.univ.filter fun i => p i (Function.update f i₀ v i)).card =
      (Finset.univ.filter fun i => p i (f i)).card := by
  have hset : (Finset.univ.filter fun i => p i (Function.update f i₀ v i)) =
      Finset.univ.filter fun i => p i (f i) := by
    ext j
    by_cases hj : j = i₀
    · subst hj
      simp [Function.update_same, h]
    · simp [Function.update_noteq hj]
  rw [hset]

/-- Consuming an unconsumed answer position holding letter `c` raises the
consumed count for `c` by one. -/
lemma usedCnt_update_add (used : Fin wordSize → Bool) (a : Word) (j : Fin wordSize)
    (c : Nat) (h₀ : used j = false) (h₁ : a j = c) :
    usedCnt (Function.update used j true) a c = usedCnt used a c + 1 :=
  card_filter_update_add used j true (fun j' x => x = true ∧ a j' = c)
    (by simp [h₀]) (by simp [h₁])

/-- Consuming an answer position of another letter leaves the consumed count
for `c` unchanged. -/
lemma usedCnt_update_eq (used : Fin wordSize → Bool) (a : Word) (j : Fin wordSize)
    (c : Nat) (h : ¬ a j = c) :
    usedCnt (Function.update used j true) a c = usedCnt used a c :=
  card_filter_update_eq used j true (fun j' x => x = true ∧ a j' = c)
    (by simp [h])

/-- Marking a not-yet-`Misplaced` position of letter `c` as `Misplaced` raises
the `Misplaced` count for `c` by one. -/
lemma misCnt_update_add (rv : Mask) (g : Word) (i : Fin wordSize) (c : Nat)
    (h₀ : rv i ≠ Correctness.Misplaced) (h₁ : g i = c) :
    misCnt (Function.update rv i Correctness.Misplaced) g c = misCnt rv g c + 1 :=
  card_filter_update_add rv i Correctness.Misplaced
    (fun i' x => x = Correctness.Misplaced ∧ g i' = c) (by simp [h₀]) (by simp [h₁])

/-- Marking a position of another letter `Misplaced` leaves the `Misplaced`
count for `c` unchanged. -/
lemma misCnt_update_eq (rv : Mask) (g : Word) (i : Fin wordSize) (c : Nat)
    (h : ¬ g i = c) :
    misCnt (Function.update rv i Correctness.Misplaced) g c = misCnt rv g c :=
  card_filter_update_eq rv i Correctness.Misplaced
    (fun i' x => x = Correctness.Misplaced ∧ g i' = c) (by simp [h])

/-- The invariant holds after the first pass, with every position still to
process. -/
lemma inv_init (a g : Word) :
    Inv a g (initRv a g, initUsed a g) (List.finRange wordSize) := by
  refine ⟨?_, ?_, ?_, ?_⟩
  · intro i
    by_cases h : a i = g i <;> simp [initRv, h]
  · intro c
    have h1 : misCnt (initRv a g) g c = 0 := by
      unfold misCnt
      rw [Finset.card_eq_zero]
      ext i
      by_cases h : a i = g i <;> simp [initRv, h]
    have h2 : usedCnt (initUsed a g) a c = corrCnt a g c := by
      unfold usedCnt corrCnt
      congr 1
      ext j
      simp [initUsed]
    rw [h1, h2]
    omega
  · intro i _
    by_cases h : a i = g i <;> simp [initRv, h]
  · intro i hi
    exact absurd (List.mem_finRange i) hi

/-- The invariant is preserved by one iteration of the second pass. -/
lemma inv_step (a g : Word) (rv : Mask) (used : Fin wordSize → Bool) (i : Fin wordSize)
    (l : List (Fin wordSize)) (hi : i ∉ l) (h : Inv a g (rv, used) (i :: l)) :
    Inv a g (pass2Step a g (rv, used) i) l := by
  have hiff : ∀ i', rv i' = Correctness.Correct ↔ a i' = g i' := h.correct_iff
  have hcnt : ∀ c, usedCnt used a c = corrCnt a g c + misCnt rv g c := h.counts
  have hunp : ∀ i' ∈ i :: l, rv i' ≠ Correctness.Misplaced := h.unprocessed
  have hwd : ∀ i', i' ∉ i :: l → rv i' = Correctness.Wrong →
      ∀ j, a j = g i' → used j = true := h.wrong_done
  by_cases hc : rv i = Correctness.Correct
  · have hstep : pass2Step a g (rv, used) i = (rv, used) := by
      simp [pass2Step, hc]
    rw [hstep]
    refine ⟨hiff, hcnt, fun i' hi' => hunp i' (List.mem_cons_of_mem _ hi'), ?_⟩
    intro i' hi' hw j haj
    by_cases hii : i' = i
    · subst hii
      have hw' : rv i' = Correctness.Wrong := hw
      rw [hc] at hw'
      exact Correctness.noConfusion hw'
    · exact hwd i' (by simp [hii, hi']) hw j haj
  · cases hf : findUnused a used (g i) with
    | none =>
      have hstep : pass2Step a g (rv, used) i = (rv, used) := by
        simp [pass2Step, hc, hf]
      rw [hstep]
      refine ⟨hiff, hcnt, fun i' hi' => hunp i' (List.mem_cons_of_mem _ hi'), ?_⟩
      intro i' hi' hw j haj
      by_cases hii : i' = i
      · subst hii
        have hnone := List.find?_eq_none.mp hf j (List.mem_finRange j)
        show used j = true
        by_contra huj
        have hjf : used j = false := by
          cases hu : used j
          · rfl
          · exact absurd hu huj
        exact hnone (by simp [hjf, haj])
      · exact hwd i' (by simp [hii, hi']) hw j haj
    | some j =>
      have hj := List.find?_some hf
      have hju : used j = false := by
        cases hu : used j
        · rfl
        · rw [hu] at hj; simp at hj
      have hja : a j = g i := by
        rw [hju] at hj
        simpa using hj
      have hrv_i : rv i ≠ Correctness.Misplaced := hunp i (List.mem_cons_self i l)
      have hag : ¬ a i = g i := fun hag => hc ((hiff i).mpr hag)
      have hstep : pass2Step a g (rv, used) i =
          (Function.update rv i Correctness.Misplaced, Function.update used j true) := by
        simp [pass2Step, hc, hf]
      rw [hstep]
      have f1 : ∀ i', Function.update rv i Correctness.Misplaced i' = Correctness.Correct ↔
          a i' = g i' := by
        intro i'
        by_cases hii : i' = i
        · subst hii
          rw [Function.update_same]
          simp [hag]
        · rw [Function.update_noteq hii]
          exact hiff i'
      have f2 : ∀ c, usedCnt (Function.update used j true) a c =
          corrCnt a g c + misCnt (Function.update rv i Correctness.Misplaced) g c := by
        intro c
        have hcc := hcnt c
        by_cases hgc : g i = c
        · rw [usedCnt_update_add used a j c hju (hja.trans hgc),
            misCnt_update_add rv g i c hrv_i hgc]
          omega
        · rw [usedCnt_update_eq used a j c (fun h' => hgc (hja ▸ h')),
            misCnt_update_eq rv g i c hgc]
          exact hcc
      refine ⟨f1, f2, ?_, ?_⟩
      · intro i' hi'
        have hii : i' ≠ i := fun h' => hi (h' ▸ hi')
        show Function.update rv i Correctness.Misplaced i' ≠ Correctness.Misplaced
        rw [Function.update_noteq hii]
        exact hunp i' (List.mem_cons_of_mem _ hi')
      · intro i' hi' hw j' haj'
        by_cases hii : i' = i
        · subst hii
          have hw' : Function.update rv i' Correctness.Misplaced i' =
              Correctness.Wrong := hw
          rw [Function.update_same] at hw'
          exact Correctness.noConfusion hw'
        · have hw' : rv i' = Correctness.Wrong := by
            have hw2 : Function.update rv i Correctness.Misplaced i' =
                Correctness.Wrong := hw
            rwa [Function.update_noteq hii] at hw2
          have hold := hwd i' (by simp [hii, hi']) hw' j' haj'
          show Function.update used j true j' = true
          by_cases hjj : j' = j
          · subst hjj
            rw [Function.update_same]
          · rw [Function.update_noteq hjj]
            exact hold

/-- Folding the second pass over a duplicate-free list of positions carries
the invariant to the end. -/
lemma inv_foldl (a g : Word) :
    ∀ (l : List (Fin wordSize)) (st : Mask × (Fin wordSize → Bool)),
      l.Nodup → Inv a g st l → Inv a g (l.foldl (pass2Step a g) st) [] := by
  intro l
  induction l with
  | nil => intro st _ h; exact h
  | cons i t ih =>
    intro st hnd h
    have hi : i ∉ t := (List.nodup_cons.mp hnd).1
    exact ih (pass2Step a g st i) (List.nodup_cons.mp hnd).2
      (inv_step a g st.1 st.2 i t hi h)

/-- The invariant at the end of `Correctness::check`. -/
lemma check_inv (a g : Word) :
    Inv a g ((List.finRange wordSize).foldl (pass2Step a g) (initRv a g, initUsed a g)) [] :=
  inv_foldl a g (List.finRange wordSize) (initRv a g, initUsed a g)
    (List.nodup_finRange wordSize) (inv_init a g)

/-- A position is marked `Correct` exactly when answer and guess agree
there. -/
lemma check_correct_iff (a g : Word) (i : Fin wordSize) :
    Correctness.check a g i = Correctness.Correct ↔ a i = g i :=
  (check_inv a g).correct_iff i

/-- Counting over a disjoint split of a decidable predicate. -/
lemma card_filter_or (P Q R : Fin wordSize → Prop)
    [DecidablePred P] [DecidablePred Q] [DecidablePred R]
    (h : ∀ x, (R x ↔ P x ∨ Q x) ∧ ¬(P x ∧ Q x)) :
    (Finset.univ.filter R).card =
      (Finset.univ.filter P).card + (Finset.univ.filter Q).card := by
  have hunion : Finset.univ.filter R = Finset.univ.filter P ∪ Finset.univ.filter Q := by
    ext x
    simp [(h x).1]
  rw [hunion, Finset.card_union_of_disjoint]
  rw [Finset.disjoint_left]
  intro x hx hx2
  rw [Finset.mem_filter] at hx hx2
  exact (h x).2 ⟨hx.2, hx2.2⟩

/-- The central counting identity: for every letter, `check` marks exactly
the minimum of its occurrence counts in answer and guess as `Correct` or
`Misplaced`. -/
lemma marks_eq_min (a g : Word) (c : Nat) :
    marks (Correctness.check a g) g c = min (cnt a c) (cnt g c) := by
  have hinv := check_inv a g
  have hiff : ∀ i, Correctness.check a g i = Correctness.Correct ↔ a i = g i :=
    hinv.correct_iff
  have hcounts : usedCnt (Correctness.checkUsed a g) a c =
      corrCnt a g c + misCnt (Correctness.check a g) g c := hinv.counts c
  have hsplit1 : marks (Correctness.check a g) g c =
      (Finset.univ.filter fun i =>
        Correctness.check a g i = Correctness.Correct ∧ g i = c).card +
        misCnt (Correctness.check a g) g c := by
    unfold marks misCnt
    apply card_filter_or
    intro x
    cases hmx : Correctness.check a g x <;> simp [hmx]
  have hcorr : (Finset.univ.filter fun i =>
      Correctness.check a g i = Correctness.Correct ∧ g i = c).card = corrCnt a g c := by
    have hset : (Finset.univ.filter fun i =>
        Correctness.check a g i = Correctness.Correct ∧ g i = c) =
        Finset.univ.filter fun j => a j = g j ∧ a j = c := by
      ext x
      simp only [Finset.mem_filter, Finset.mem_univ, true_and]
      constructor
      · rintro ⟨h1, h2⟩
        have h3 := (hiff x).mp h1
        exact ⟨h3, h3 ▸ h2⟩
      · rintro ⟨h1, h2⟩
        exact ⟨(hiff x).mpr h1, h1 ▸ h2⟩
    rw [corrCnt, hset]
  have hsplit2 : cnt g c = marks (Correctness.check a g) g c +
      (Finset.univ.filter fun i =>
        Correctness.check a g i = Correctness.Wrong ∧ g i = c).card := by
    unfold cnt marks
    apply card_filter_or
    intro x
    cases hmx : Correctness.check a g x <;> simp [hmx]
  have hle : usedCnt (Correctness.checkUsed a g) a c ≤ cnt a c := by
    unfold usedCnt cnt
    apply Finset.card_le_card
    intro x hx
    rw [Finset.mem_filter] at hx ⊢
    exact ⟨hx.1, hx.2.2⟩
  by_cases hW : (Finset.univ.filter fun i =>
      Correctness.check a g i = Correctness.Wrong ∧ g i = c).card = 0
  · have h1 : marks (Correctness.check a g) g c = cnt g c := by omega
    have h2 : cnt g c ≤ cnt a c := by omega
    rw [h1]
    exact (min_eq_right h2).symm
  · obtain ⟨i₀, hi₀⟩ := Finset.card_pos.mp (Nat.pos_of_ne_zero hW)
    rw [Finset.mem_filter] at hi₀
    have hwrong : Correctness.check a g i₀ = Correctness.Wrong := hi₀.2.1
    have hall : ∀ j, a j = c → Correctness.checkUsed a g j = true := by
      intro j haj
      exact hinv.wrong_done i₀ (by simp) hwrong j (haj.trans hi₀.2.2.symm)
    have hge : cnt a c ≤ usedCnt (Correctness.checkUsed a g) a c := by
      unfold cnt usedCnt
      apply Finset.card_le_card
      intro x hx
      rw [Finset.mem_filter] at hx ⊢
      exact ⟨hx.1, hall x hx.2, hx.2⟩
    have h1 : marks (Correctness.check a g) g c = cnt a c := by omega
    have h2 : cnt a c ≤ cnt g c := by omega
    rw [h1]
    exact (min_eq_left h2).symm

/-- C1: for every answer and guess of the configured length and every letter,
`check` marks exactly `min(count in answer, count in guess)` positions of the
guess `Correct` or `Misplaced` (the rest being `Wrong`), and a position is
marked `Correct` exactly when guess and answer agree there — positional
matches always win over `Misplaced`. -/
theorem c1_check_letter_counts (a g : Word) :
    (∀ c, marks (Correctness.check a g) g c = min (cnt a c) (cnt g c)) ∧
      ∀ i, Correctness.check a g i = Correctness.Correct ↔ a i = g i :=
  ⟨fun c => marks_eq_min a g c, fun i => check_correct_iff a g i⟩

/-- C2: for a guesser that only submits dictionary words, the simulator
reports a win on turn `k` (1-based, `k ≤ 32`) exactly when the guesser first
matches the answer on turn `k`, and a loss when none of the 32 turns matches.
`PlayResult.won k` embeds `Some(k)` and `PlayResult.lost` embeds `None`. -/
theorem c2_play_reports_first_match (dict : List Word) (answer : Word)
    (guesser : List GuessRec → Word) (hdict : ∀ past, guesser past ∈ dict) :
    (∀ k, 1 ≤ k → k ≤ triesBeforeLoss → guessAt answer guesser k = answer →
      (∀ j, 1 ≤ j → j < k → guessAt answer guesser j ≠ answer) →
      Wordle.play dict answer guesser = PlayResult.won k) ∧
    ((∀ j, 1 ≤ j → j ≤ triesBeforeLoss → guessAt answer guesser j ≠ answer) →
      Wordle.play dict answer guesser = PlayResult.lost) := by
  constructor
  · intro k h1 h2 hmatch hmiss
    exact playGo_won dict answer guesser hdict triesBeforeLoss 1 k (le_refl 1) h1
      (by omega) hmatch (fun j hj1 hj2 => hmiss j hj1 hj2)
  · intro hmiss
    exact playGo_lost dict answer guesser hdict triesBeforeLoss 1 (le_refl 1)
      (fun j hj1 hj2 => hmiss j hj1 (by omega))

/-- Instantiation of the turn-count theorem: a guesser that answers "moved"
on its second call (and "which" before) wins on turn 2. -/
theorem c2_play_reports_first_match_witness :
    Wordle.play dictC ansA guessC = PlayResult.won 2 :=
  (c2_play_reports_first_match dictC ansA guessC
    (fun past => by
      by_cases h : past.length = 1 <;> simp [guessC, dictC, h])).1
    2 (by decide) (by decide) (by decide)
    (fun j h1 h2 => by
      have hj : j = 1 := by omega
      subst hj
      decide)

/-- A word scores all-`Correct` against a guess exactly when the two words
are equal. -/
lemma check_all_correct_iff (a g : Word) :
    Correctness.check a g = allCorrect ↔ a = g := by
  constructor
  · intro h
    funext i
    exact (check_correct_iff a g i).mp (by rw [h]; rfl)
  · intro h
    subst h
    funext i
    show Correctness.check a a i = Correctness.Correct
    exact (check_correct_iff a a i).mpr rfl

/-- Filtering a duplicate-free-key pool by one present key keeps exactly that
key's entry. -/
lemma filter_eq_key (pool : Pool) (g : Word) :
    (pool.map Prod.fst).Nodup → g ∈ pool.map Prod.fst →
      ∃ c : ℚ, pool.filter (fun p => decide (p.1 = g)) = [(g, c)] := by
  induction pool with
  | nil => intro _ h; simp at h
  | cons p t ih =>
    intro hnd hg
    rw [List.map_cons, List.nodup_cons] at hnd
    by_cases hp : p.1 = g
    · have hnotin : g ∉ t.map Prod.fst := hp ▸ hnd.1
      have hfilter_t : t.filter (fun q => decide (q.1 = g)) = [] := by
        rw [List.filter_eq_nil_iff]
        intro q hq
        simp only [decide_eq_true_eq]
        intro hq1
        exact hnotin (hq1 ▸ List.mem_map_of_mem Prod.fst hq)
      obtain ⟨w, cc⟩ := p
      have hw : w = g := hp
      subst hw
      exact ⟨cc, by simp [List.filter_cons, hfilter_t]⟩
    · have hg' : g ∈ t.map Prod.fst := by
        rw [List.map_cons, List.mem_cons] at hg
        rcases hg with h' | h'
        · exact absurd h'.symm hp
        · exact h'
      obtain ⟨c, hc⟩ := ih hnd.2 hg'
      exact ⟨c, by simp [List.filter_cons, hp, hc]⟩

/-- C6: if the most recent guess was scored all-`Correct` and the guessed word
is a key of a duplicate-free pool, the prune retains exactly that word's entry
and the guess call returns that word. -/
theorem c6_all_correct_pins_pool (ent : Word → ℚ) (pool : Pool) (past : List GuessRec)
    (g : Word) (hlast : past.getLast? = some ⟨g, allCorrect⟩)
    (hnd : (pool.map Prod.fst).Nodup) (hg : g ∈ pool.map Prod.fst) :
    (Unoptimized.guess ent pool past).1.map Prod.fst = [g] ∧
      (Unoptimized.guess ent pool past).2 = some g := by
  have hprune : (Unoptimized.guess ent pool past).1 = pruneOnce pool ⟨g, allCorrect⟩ := by
    simp [Unoptimized.guess, hlast]
  have hpred : pruneOnce pool ⟨g, allCorrect⟩ =
      pool.filter (fun p => decide (p.1 = g)) := by
    unfold pruneOnce
    apply List.filter_congr
    intro p _
    exact decide_eq_decide.mpr (check_all_correct_iff p.1 g)
  obtain ⟨c, hc⟩ := filter_eq_key pool g hnd hg
  have h1 : (Unoptimized.guess ent pool past).1 = [(g, c)] := by
    rw [hprune, hpred, hc]
  refine ⟨by rw [h1]; rfl, ?_⟩
  rw [guess_snd, h1]
  rfl

/-- Instantiation of the all-`Correct` prune theorem on a concrete two-entry
pool whose first word was just scored all-`Correct`. -/
theorem c6_all_correct_pins_pool_witness :
    (Unoptimized.guess entHead poolB
        [⟨mkW 0 0 1 1 4, allCorrect⟩]).1.map Prod.fst = [mkW 0 0 1 1 4] ∧
      (Unoptimized.guess entHead poolB
        [⟨mkW 0 0 1 1 4, allCorrect⟩]).2 = some (mkW 0 0 1 1 4) :=
  c6_all_correct_pins_pool entHead poolB [⟨mkW 0 0 1 1 4, allCorrect⟩]
    (mkW 0 0 1 1 4) (by decide) (by decide) (by decide)

/-- C3 fails on the code: the scoring loop calls `check(W, R)` — candidate `W`
in the answer slot, pool word `R` in the guess slot — while the claim states
`check(R, W)`. The two argument orders produce different masks and different
mask distributions. On the pool {aabbe, bzazz, ezazz} with unit weights and
candidate W = aabbe, the mask `check(ezazz, aabbe) = [M, W, W, W, M]` has
claimed probability 1/3 but the code's accumulator assigns it mass 0 (the
code's masks for the pool are [C,C,C,C,C], [M,W,M,W,W], [M,W,M,W,W]). -/
theorem c3_scoring_direction_diverges :
    Correctness.check (mkW 0 0 1 1 4) (mkW 4 25 0 25 25) ≠
        Correctness.check (mkW 4 25 0 25 25) (mkW 0 0 1 1 4) ∧
      maskWeight poolC (mkW 0 0 1 1 4)
          (mkM .Misplaced .Wrong .Wrong .Wrong .Misplaced) = 0 ∧
      maskWeightClaim poolC (mkW 0 0 1 1 4)
          (mkM .Misplaced .Wrong .Wrong .Wrong .Misplaced) = 1 / 3 := by
  have hfilter1 : (poolC.filter fun r => decide (Correctness.check (mkW 0 0 1 1 4) r.1 =
      mkM .Misplaced .Wrong .Wrong .Wrong .Misplaced)) = [] := by decide
  have hfilter2 : (poolC.filter fun r => decide (Correctness.check r.1 (mkW 0 0 1 1 4) =
      mkM .Misplaced .Wrong .Wrong .Wrong .Misplaced)) = [(mkW 4 25 0 25 25, 1)] := by
    decide
  have ht : totalWeight poolC = 3 := by norm_num [totalWeight, poolC]
  refine ⟨by decide, ?_, ?_⟩
  · unfold maskWeight
    rw [hfilter1]
    rfl
  · unfold maskWeightClaim
    rw [hfilter2]
    show (1 : ℚ) / totalWeight poolC + 0 = 1 / 3
    rw [ht]
    norm_num

/-- C7: the simulator aborts on the membership assertion exactly when some
turn it actually reaches submits a word outside the dictionary (every earlier
turn having submitted a legal, non-matching word); the assertion precedes the
answer comparison, so an illegal guess can never win or be scored. -/
theorem c7_assert_guess_in_dictionary (dict : List Word) (answer : Word)
    (guesser : List GuessRec → Word) :
    Wordle.play dict answer guesser = PlayResult.panicked ↔
      ∃ k, 1 ≤ k ∧ k ≤ triesBeforeLoss ∧ guessAt answer guesser k ∉ dict ∧
        ∀ j, 1 ≤ j → j < k →
          guessAt answer guesser j ∈ dict ∧ guessAt answer guesser j ≠ answer := by
  have h := playGo_panic_iff dict answer guesser triesBeforeLoss 1 (le_refl 1)
  have hplay : Wordle.play dict answer guesser =
      playGo dict answer guesser triesBeforeLoss 1 (histTrace answer guesser 0) := rfl
  rw [hplay, h]
  constructor
  · rintro ⟨k, h1, h2, h3, h4⟩
    exact ⟨k, h1, by omega, h3, h4⟩
  · rintro ⟨k, h1, h2, h3, h4⟩
    exact ⟨k, h1, by omega, h3, h4⟩

end Roget

